import Mathlib

/-!
Verification development for the file-signature pipeline of
`quantum_signatures.py` (class `QuantumSignatureEngine`).

The Python source is shallowly embedded:
* file contents are byte lists (`List ℕ`), the filesystem is a partial map
  from paths to contents (`none` models a missing or unreadable file);
* the four hash primitives from `hashlib` are parameters
  (`HashPrimitives`); an incremental hash object is modelled by the byte
  stream it has absorbed (`HashCtx`), with `update` appending and the final
  digest applying the primitive to the absorbed stream — this is the
  documented contract of `hashlib` objects;
* the `random` module is modelled by an infinite stream `rng : ℕ → ℚ` of
  draws in `[0,1)` consumed left to right: `random.random()` reads one
  value, `random.uniform(a,b)` is `a + (b-a)·u`, `random.randrange(n)` is
  `⌊u·n⌋`; positions into the stream are threaded explicitly;
* Python floats are modelled as real numbers;
* the unbounded retry loop in the entanglement-pair sampler is given
  explicit fuel and returns `Option`; exhausted fuel (`none`) models a
  non-terminating run, which produces no result;
* the engine object is explicit state: methods that mutate `self` take and
  return an `Engine`.
-/

namespace QuantumSignatures

/-! ## Digest combiner (`_calculate_complex_hash`) -/

/-- The four hash primitives used by the combiner (`hashlib.sha256`,
`hashlib.md5`, `hashlib.sha1`, `hashlib.blake2b`), as abstract functions
from byte streams to digests. -/
structure HashPrimitives where
  sha256 : List ℕ → List ℕ
  md5 : List ℕ → List ℕ
  sha1 : List ℕ → List ℕ
  blake2b : List ℕ → List ℕ

/-- An incremental `hashlib` object, modelled by the byte stream absorbed
so far. -/
structure HashCtx where
  absorbed : List ℕ

/-- A fresh `hashlib` object has absorbed nothing. -/
def HashCtx.start : HashCtx := ⟨[]⟩

/-- `h.update(chunk)` absorbs a further chunk. -/
def HashCtx.update (c : HashCtx) (chunk : List ℕ) : HashCtx :=
  ⟨c.absorbed ++ chunk⟩

/-- `h.digest()`: the primitive applied to everything absorbed. -/
def HashCtx.final (H : List ℕ → List ℕ) (c : HashCtx) : List ℕ :=
  H c.absorbed

/-- Cutting a byte stream into successive chunks of (at most) `n` bytes:
the chunk sequence produced by `while chunk := f.read(n)`. -/
def chunksOf (n : ℕ) (l : List ℕ) : List (List ℕ) :=
  if h : l = [] ∨ n = 0 then []
  else l.take n :: chunksOf n (l.drop n)
termination_by l.length
decreasing_by
  push_neg at h
  have h1 : 0 < n := Nat.pos_of_ne_zero h.2
  have h2 : 0 < l.length := List.length_pos.mpr h.1
  simp only [List.length_drop]
  omega

/-- A filesystem: paths to byte contents; `none` is a missing or
unreadable file. -/
abbrev Filesystem := String → Option (List ℕ)

/-- The small-file branch of `_calculate_complex_hash`: read everything,
hash each primitive once, concatenate, re-hash with blake2b. -/
def wholeFileDigest (hp : HashPrimitives) (content : List ℕ) : List ℕ :=
  hp.blake2b (hp.sha256 content ++ hp.md5 content ++ hp.sha1 content)

/-- The large-file branch of `_calculate_complex_hash`: feed 4096-byte
chunks into the three incremental objects, then combine as above. -/
def streamedDigest (hp : HashPrimitives) (content : List ℕ) : List ℕ :=
  let chunks := chunksOf 4096 content
  let s256 := chunks.foldl HashCtx.update HashCtx.start
  let m5 := chunks.foldl HashCtx.update HashCtx.start
  let s1 := chunks.foldl HashCtx.update HashCtx.start
  hp.blake2b (s256.final hp.sha256 ++ m5.final hp.md5 ++ s1.final hp.sha1)

/-- `QuantumSignatureEngine._calculate_complex_hash`: whole-file digest
below 50 MiB, streamed digest above; `none` (the raised `IOError`) if the
file cannot be read. -/
def _calculate_complex_hash (hp : HashPrimitives) (fs : Filesystem)
    (path : String) : Option (List ℕ) :=
  match fs path with
  | none => none
  | some content =>
    if content.length < 50 * 1024 * 1024 then some (wholeFileDigest hp content)
    else some (streamedDigest hp content)

/-! ## Engine state (`QuantumSignatureEngine.__init__`) -/

/-- The engine object.  All fields are set in `__init__`;
`entanglement_pairs` is the one field later methods reassign. -/
structure Engine where
  dimensions : ℕ
  resolution : ℕ
  color_space : String
  superposition_count : ℕ
  entanglement_pairs : List (ℕ × ℕ)
  confidence_level : ℚ
  evolution_steps : ℕ

/-- The constructor values: D = 8, resolution 256, "hsv", S = 16, no
pairs yet, confidence 0.95, 3 evolution steps. -/
def Engine.start : Engine :=
  { dimensions := 8
    resolution := 256
    color_space := "hsv"
    superposition_count := 16
    entanglement_pairs := []
    confidence_level := 95 / 100
    evolution_steps := 3 }

/-! ## Randomness model -/

/-- A random stream: the successive outputs of `random.random()`,
each a float in `[0,1)` (floats are rationals). -/
abbrev Rng := ℕ → ℚ

/-- `random.randrange(n)` realised from one stream draw. -/
def randrangeDraw (u : ℚ) (n : ℕ) : ℕ := ⌊u * n⌋₊

/-- `random.uniform(a, b)` realised from one stream draw. -/
noncomputable def uniformDraw (u : ℚ) (a b : ℝ) : ℝ := a + (b - a) * (u : ℝ)

/-! ## State constructor (`_hash_to_quantum_state`) -/

/-- A "quantum state": D dimensions, each a list of S superposition
variants, each a list of values. -/
abbrev QState := List (List (List ℝ))

/-- One jittered value of a superposition variant:
`min(1.0, max(0.0, v + random.uniform(-0.1, 0.1)))`. -/
noncomputable def jitterValue (u : ℚ) (v : ℝ) : ℝ :=
  min 1 (max 0 (v + uniformDraw u (-(1 / 10)) (1 / 10)))

/-- One superposition variant: every base value jittered, consuming one
stream draw per value. -/
noncomputable def jitterVariant (rng : Rng) : ℕ → List ℝ → List ℝ
  | _, [] => []
  | pos, v :: vs => jitterValue (rng pos) v :: jitterVariant rng (pos + 1) vs

/-- The S superposition variants of one dimension, drawn sequentially. -/
noncomputable def mkDimension (rng : Rng) : ℕ → ℕ → List ℝ → List (List ℝ) × ℕ
  | 0, pos, _ => ([], pos)
  | s + 1, pos, values =>
    let variation := jitterVariant rng pos values
    let rest := mkDimension rng s (pos + values.length) values
    (variation :: rest.1, rest.2)

/-- The base-state construction loop over digest chunks: each chunk is
scaled to `[0,1]` by `b/255` and expanded into its superposition. -/
noncomputable def mkState (rng : Rng) (s : ℕ) :
    ℕ → List (List ℕ) → QState × ℕ
  | pos, [] => ([], pos)
  | pos, c :: cs =>
    let values : List ℝ := c.map fun (b : ℕ) => (b : ℝ) / 255
    let dim := mkDimension rng s pos values
    let rest := mkState rng s dim.2 cs
    (dim.1 :: rest.1, rest.2)

/-- Splitting the digest into D contiguous chunks,
`hash_bytes[start:end]` with the last chunk absorbing the remainder. -/
def digestChunks (dims : ℕ) (digest : List ℕ) : List (List ℕ) :=
  (List.range dims).map fun i =>
    let cs := digest.length / dims
    if i < dims - 1 then (digest.drop (i * cs)).take cs
    else digest.drop (i * cs)

/-- The `while dim1 == dim2` retry loop: draw `dim2` until it differs
from `dim1`, bounded by fuel (`none` models the loop never exiting). -/
def retryDim2 (rng : Rng) (n dim1 : ℕ) : ℕ → ℕ → Option (ℕ × ℕ)
  | _, 0 => none
  | pos, fuel + 1 =>
    let d2 := randrangeDraw (rng pos) n
    if d2 = dim1 then retryDim2 rng n dim1 (pos + 1) fuel
    else some (d2, pos + 1)

/-- One entanglement pair: `dim1 = randrange(D)`, then `dim2` drawn and
re-drawn until distinct. -/
def samplePair (rng : Rng) (n pos fuel : ℕ) : Option ((ℕ × ℕ) × ℕ) :=
  let d1 := randrangeDraw (rng pos) n
  match retryDim2 rng n d1 (pos + 1) fuel with
  | none => none
  | some (d2, pos2) => some ((d1, d2), pos2)

/-- The `for _ in range(D // 2)` pair-sampling loop. -/
def samplePairs (rng : Rng) (n : ℕ) : ℕ → ℕ → ℕ → Option (List (ℕ × ℕ) × ℕ)
  | 0, pos, _ => some ([], pos)
  | count + 1, pos, fuel =>
    match samplePair rng n pos fuel with
    | none => none
    | some (p, pos2) =>
      match samplePairs rng n count pos2 fuel with
      | none => none
      | some (ps, pos3) => some (p :: ps, pos3)

/-- `QuantumSignatureEngine._hash_to_quantum_state`: build the state from
the digest chunks, then sample the entanglement pairs and store them on
the engine (`self.entanglement_pairs = ...`). -/
noncomputable def _hash_to_quantum_state (eng : Engine) (rng : Rng)
    (fuel pos : ℕ) (digest : List ℕ) : Option (QState × Engine × ℕ) :=
  let st := mkState rng eng.superposition_count pos
    (digestChunks eng.dimensions digest)
  match samplePairs rng eng.dimensions (eng.dimensions / 2) st.2 fuel with
  | none => none
  | some (prs, pos2) =>
    some (st.1, { eng with entanglement_pairs := prs }, pos2)

/-! ## State evolver (`_evolve_quantum_state`) -/

/-- Normalisation of one superposition variant: divide by the sum if it
is positive, else leave unchanged. -/
noncomputable def normalizeVariant (v : List ℝ) : List ℝ :=
  if v.sum > 0 then v.map fun x => x / v.sum else v

/-- The nonlinear gate applied to one value:
`min(1.0, max(0.0, math.sin(v * math.pi) ** 2))`. -/
noncomputable def transformValue (x : ℝ) : ℝ :=
  min 1 (max 0 (Real.sin (x * Real.pi) ^ 2))

/-- One variant after the normalise-then-transform phase of a round. -/
noncomputable def transformVariant (v : List ℝ) : List ℝ :=
  (normalizeVariant v).map transformValue

/-- The entangling replacement on one variant pair: with probability 0.5
(`random.random() < 0.5`) each aligned value pair `(x, y)` becomes
`(mean + diff, mean - diff)` with `mean = (x+y)/2`, `diff = |x-y|/4`;
positions beyond the shorter variant are untouched. -/
noncomputable def coupleVariant (u : ℚ) (v1 v2 : List ℝ) :
    List ℝ × List ℝ :=
  if u < 1 / 2 then
    (List.zipWith (fun x y => (x + y) / 2 + |x - y| / 4) v1 v2
        ++ v1.drop (min v1.length v2.length),
      List.zipWith (fun x y => (x + y) / 2 - |x - y| / 4) v1 v2
        ++ v2.drop (min v1.length v2.length))
  else (v1, v2)

/-- The `for i in range(min(len, len))` loop over aligned variants of an
entangled dimension pair, one stream draw per variant index. -/
noncomputable def coupleDims (rng : Rng) :
    ℕ → List (List ℝ) → List (List ℝ) →
      (List (List ℝ) × List (List ℝ)) × ℕ
  | pos, [], l2 => (([], l2), pos)
  | pos, v1 :: t1, [] => ((v1 :: t1, []), pos)
  | pos, v1 :: t1, v2 :: t2 =>
    let c := coupleVariant (rng pos) v1 v2
    let rest := coupleDims rng (pos + 1) t1 t2
    ((c.1 :: rest.1.1, c.2 :: rest.1.2), rest.2)

/-- Applying the entangling step for one pair `(dim1, dim2)`: the two
dimension entries of the state are read, coupled, and written back. -/
noncomputable def applyPair (rng : Rng) (pos : ℕ) (st : QState)
    (d1 d2 : ℕ) : QState × ℕ :=
  let r := coupleDims rng pos (st.getD d1 []) (st.getD d2 [])
  ((st.set d1 r.1.1).set d2 r.1.2, r.2)

/-- `QuantumSignatureEngine._evolve_quantum_state`: one evolution round —
every variant is normalised and transformed, then each entanglement pair
is coupled in order. -/
noncomputable def _evolve_quantum_state (eng : Engine) (rng : Rng)
    (pos : ℕ) (st : QState) : QState × ℕ :=
  let evolved := st.map fun dim => dim.map transformVariant
  eng.entanglement_pairs.foldl
    (fun acc p => applyPair rng acc.2 acc.1 p.1 p.2) (evolved, pos)

/-- The `for _ in range(self.evolution_steps)` loop of
`generate_signature`. -/
noncomputable def evolveSteps (eng : Engine) (rng : Rng) :
    ℕ → ℕ → QState → QState × ℕ
  | 0, pos, st => (st, pos)
  | n + 1, pos, st =>
    let r := _evolve_quantum_state eng rng pos st
    evolveSteps eng rng n r.2 r.1

/-- All values of a list lie in `[0, 1]`. -/
def ValuesIn01 (v : List ℝ) : Prop := ∀ x ∈ v, 0 ≤ x ∧ x ≤ 1

/-- All values of a quantum state lie in `[0, 1]`. -/
def StateIn01 (st : QState) : Prop :=
  ∀ dim ∈ st, ∀ va ∈ dim, ValuesIn01 va

/-! ## State analyzer (`_analyze_quantum_state`) -/

/-- One entry of the collapsed matrix before normalisation:
`collapsed_state[i, j] = Σ_variants variant[j]`, where only positions
`j < D` of each variant contribute (`superposition[:dimensions]`). -/
noncomputable def collapsedEntry (dim : List (List ℝ)) (dims j : ℕ) : ℝ :=
  (dim.map fun v => (v.take dims).getD j 0).sum

/-- The D×D collapsed (pre-normalisation) matrix. -/
noncomputable def collapsedMatrix (dims : ℕ) (st : QState) :
    List (List ℝ) :=
  (List.range dims).map fun i =>
    (List.range dims).map fun j => collapsedEntry (st.getD i []) dims j

/-- Row normalisation with the `where=row_sums!=0` zero-guard of
`np.divide(..., out=np.zeros_like(...), where=row_sums!=0)`. -/
noncomputable def normalizeRow (row : List ℝ) : List ℝ :=
  if row.sum = 0 then row.map fun _ => (0 : ℝ)
  else row.map fun x => x / row.sum

/-- The amplitude matrix: every row of the collapsed matrix
normalised. -/
noncomputable def normalizedMatrix (m : List (List ℝ)) : List (List ℝ) :=
  m.map normalizeRow

/-- `any(i in pair or j in pair for pair in self.entanglement_pairs)`. -/
def isCoupled (pairs : List (ℕ × ℕ)) (i j : ℕ) : Bool :=
  pairs.any fun p => i == p.1 || i == p.2 || j == p.1 || j == p.2

/-- Python's `%` on floats for a positive modulus. -/
noncomputable def pymod (x y : ℝ) : ℝ := x - y * ⌊x / y⌋

/-- One row of the phase matrix: coupled cells draw
`random.uniform(0, 2π)` (consuming a stream draw), other cells are the
deterministic `(i * j) % (2π)`. -/
noncomputable def phaseRow (pairs : List (ℕ × ℕ)) (rng : Rng) (i : ℕ) :
    ℕ → List ℕ → List ℝ × ℕ
  | pos, [] => ([], pos)
  | pos, j :: js =>
    if isCoupled pairs i j then
      let rest := phaseRow pairs rng i (pos + 1) js
      (uniformDraw (rng pos) 0 (2 * Real.pi) :: rest.1, rest.2)
    else
      let rest := phaseRow pairs rng i pos js
      (pymod ((i * j : ℕ) : ℝ) (2 * Real.pi) :: rest.1, rest.2)

/-- The D×D phase matrix, rows generated in order. -/
noncomputable def phasesMatrix (pairs : List (ℕ × ℕ)) (rng : Rng)
    (dims : ℕ) : ℕ → List ℕ → List (List ℝ) × ℕ
  | pos, [] => ([], pos)
  | pos, i :: irest =>
    let row := phaseRow pairs rng i pos (List.range dims)
    let rest := phasesMatrix pairs rng dims row.2 irest
    (row.1 :: rest.1, rest.2)

/-- The signature-data dictionary returned by
`_analyze_quantum_state`. -/
structure SigData where
  amplitudes : List (List ℝ)
  phases : List (List ℝ)
  entanglement : List (ℕ × ℕ)

/-- `QuantumSignatureEngine._analyze_quantum_state`. -/
noncomputable def _analyze_quantum_state (eng : Engine) (rng : Rng)
    (pos : ℕ) (st : QState) : SigData × ℕ :=
  let amps := normalizedMatrix (collapsedMatrix eng.dimensions st)
  let ph := phasesMatrix eng.entanglement_pairs rng eng.dimensions pos
    (List.range eng.dimensions)
  (⟨amps, ph.1, eng.entanglement_pairs⟩, ph.2)

/-! ## Uniqueness scorer (`_calculate_uniqueness`) -/

/-- The contribution of one amplitude to the entropy accumulator:
`if a > 0: entropy -= a * math.log2(a)`. -/
noncomputable def entropyTerm (a : ℝ) : ℝ :=
  if a > 0 then -(a * Real.logb 2 a) else 0

/-- The Shannon entropy the scorer accumulates over the flattened
amplitude matrix. -/
noncomputable def amplitudeEntropy (flat : List ℝ) : ℝ :=
  (flat.map entropyTerm).sum

/-- `QuantumSignatureEngine._calculate_uniqueness`. -/
noncomputable def _calculate_uniqueness (eng : Engine) (sig : SigData) :
    ℝ :=
  let flat := sig.amplitudes.flatten
  let entropy := amplitudeEntropy flat
  let max_entropy := Real.logb 2 (flat.length)
  let normalized_entropy :=
    if max_entropy > 0 then entropy / max_entropy else 0
  let entanglement_factor :=
    (sig.entanglement.length : ℝ) / ((eng.dimensions : ℝ) / 2)
  min 1 (normalized_entropy * (7 / 10) + entanglement_factor * (3 / 10))

/-! ## Visual renderer (`_visualize_quantum_signature`) -/

/-- An RGBA pixel. -/
abbrev Pixel := ℤ × ℤ × ℤ × ℤ

/-- A PIL image: fixed width and height and a pixel map. -/
structure Image where
  width : ℕ
  height : ℕ
  pix : ℤ → ℤ → Pixel

/-- `Image.new('RGBA', (r, r), (0, 0, 0, 0))`. -/
def Image.new (r : ℕ) : Image := ⟨r, r, fun _ _ => (0, 0, 0, 0)⟩

/-- `draw.point((x, y), fill=c)`. -/
def Image.point (img : Image) (x y : ℤ) (c : Pixel) : Image :=
  { img with pix := fun a b => if a = x ∧ b = y then c else img.pix a b }

section

open Classical

/-- `draw.ellipse((x-s, y-s, x+s, y+s), fill=c)`: fill the disk of
radius `s` centred at `(x, y)`. -/
noncomputable def Image.ellipseFill (img : Image) (cx cy : ℝ) (s : ℤ)
    (c : Pixel) : Image :=
  { img with
    pix := fun a b =>
      if ((a : ℝ) - cx) ^ 2 + ((b : ℝ) - cy) ^ 2 ≤ (s : ℝ) ^ 2 then c
      else img.pix a b }

end

/-- Python `int()` applied to a float: truncation toward zero. -/
noncomputable def pyInt (x : ℝ) : ℤ := if 0 ≤ x then ⌊x⌋ else -⌊-x⌋

/-- The HSV→RGB sector conversion as written (twice) in the source. -/
noncomputable def hsvToRgb (hue saturation value : ℝ) : ℝ × ℝ × ℝ :=
  let h := hue / 60
  let i := pyInt h
  let f := h - (i : ℝ)
  let p := value * (1 - saturation)
  let q := value * (1 - saturation * f)
  let t := value * (1 - saturation * (1 - f))
  if i = 0 then (value, t, p)
  else if i = 1 then (q, value, p)
  else if i = 2 then (p, value, t)
  else if i = 3 then (p, q, value)
  else if i = 4 then (t, p, value)
  else (value, p, q)

/-- One iteration of the background-gradient double loop: the pixel at
`(x, y)` coloured from its grid cell's amplitude and phase. -/
noncomputable def gridPixel (eng : Engine) (sig : SigData) (img : Image)
    (x y : ℕ) : Image :=
  let cell_width := (eng.resolution : ℝ) / eng.dimensions
  let cell_height := (eng.resolution : ℝ) / eng.dimensions
  let i := pyInt ((y : ℝ) / cell_height)
  let j := pyInt ((x : ℝ) / cell_width)
  if i < (eng.dimensions : ℤ) ∧ j < (eng.dimensions : ℤ) then
    let amplitude := (sig.amplitudes.getD i.toNat []).getD j.toNat 0
    let phase := (sig.phases.getD i.toNat []).getD j.toNat 0
    let hue := phase / (2 * Real.pi) * 360
    let saturation := 8 / 10 + amplitude * (2 / 10)
    let value := 1 / 2 + amplitude * (1 / 2)
    let rgb := hsvToRgb hue saturation value
    let alpha := pyInt (127 + 128 * amplitude)
    img.point x y (pyInt (rgb.1 * 255), pyInt (rgb.2.1 * 255),
      pyInt (rgb.2.2 * 255), alpha)
  else img

/-- One of the 100 dots of an entanglement connector line. -/
noncomputable def connectorDot (eng : Engine) (d1 d2 : ℕ) (img : Image)
    (istep : ℕ) : Image :=
  let cell_width := (eng.resolution : ℝ) / eng.dimensions
  let cell_height := (eng.resolution : ℝ) / eng.dimensions
  let x1 := ((d1 : ℝ) + 1 / 2) * cell_width
  let y1 := ((d1 : ℝ) + 1 / 2) * cell_height
  let x2 := ((d2 : ℝ) + 1 / 2) * cell_width
  let y2 := ((d2 : ℝ) + 1 / 2) * cell_height
  let t := (istep : ℝ) / 100
  let x := x1 + (x2 - x1) * t + 20 * Real.sin (t * Real.pi)
  let y := y1 + (y2 - y1) * t + 20 * Real.sin (t * Real.pi)
  let hue := pymod (t * 360) 360
  let rgb := hsvToRgb hue (8 / 10) (9 / 10)
  let s := pyInt (3 + 2 * Real.sin (t * Real.pi * 2))
  img.ellipseFill x y s (pyInt (rgb.1 * 255), pyInt (rgb.2.1 * 255),
    pyInt (rgb.2.2 * 255), 200)

/-- `QuantumSignatureEngine._visualize_quantum_signature`: grid fill,
then the entanglement connector dots. -/
noncomputable def _visualize_quantum_signature (eng : Engine)
    (sig : SigData) : Image :=
  let img0 := Image.new eng.resolution
  let img1 := (List.range eng.resolution).foldl
    (fun im y => (List.range eng.resolution).foldl
      (fun im2 x => gridPixel eng sig im2 x y) im) img0
  sig.entanglement.foldl
    (fun im p => (List.range 100).foldl
      (fun im2 istep => connectorDot eng p.1 p.2 im2 istep) im) img1

/-! ## Top-level operation (`generate_signature`) -/

/-- The result dictionary of a successful `generate_signature` call. -/
structure SigResult where
  signature_data : SigData
  signature_image : Image
  confidence : ℚ
  uniqueness_score : ℝ

/-- `QuantumSignatureEngine.generate_signature`.  The `try`/`except`
returns `None` whenever the hash step raises; an engine is threaded
explicitly because `_hash_to_quantum_state` assigns
`self.entanglement_pairs`. -/
noncomputable def generate_signature (hp : HashPrimitives)
    (fs : Filesystem) (rng : Rng) (fuel : ℕ) (eng : Engine)
    (path : String) (evolution : Bool) : Option SigResult × Engine :=
  match _calculate_complex_hash hp fs path with
  | none => (none, eng)
  | some digest =>
    match _hash_to_quantum_state eng rng fuel 0 digest with
    | none => (none, eng)
    | some (st, eng2, pos) =>
      let evolved :=
        if evolution then evolveSteps eng2 rng eng2.evolution_steps pos st
        else (st, pos)
      let sig := _analyze_quantum_state eng2 rng evolved.2 evolved.1
      let img := _visualize_quantum_signature eng2 sig.1
      (some ⟨sig.1, img, eng2.confidence_level,
        _calculate_uniqueness eng2 sig.1⟩, eng2)

/-! ## Concrete instances used to witness the theorems -/

/-- Hash primitives that all return the empty digest (any choice of the
abstract primitives is admissible). -/
def hp0 : HashPrimitives := ⟨fun _ => [], fun _ => [], fun _ => [], fun _ => []⟩

/-- A filesystem holding an empty (zero-byte) file at every path. -/
def fs0 : Filesystem := fun _ => some []

/-- A filesystem with no readable file at any path. -/
def fsNone : Filesystem := fun _ => none

/-- A concrete random stream alternating 0 and 1/8. -/
def rng0 : Rng := fun k => ((k % 2 : ℕ) : ℚ) / 8

theorem mkDimension_snd (rng : Rng) (s : ℕ) :
    ∀ (pos : ℕ) (values : List ℝ),
      (mkDimension rng s pos values).2 = pos + s * values.length := by
  induction s with
  | zero => intro pos values; simp [mkDimension]
  | succ s ih =>
    intro pos values
    simp only [mkDimension]
    rw [ih]
    ring

theorem mkState_snd (rng : Rng) (s : ℕ) :
    ∀ (cs : List (List ℕ)) (pos : ℕ),
      (mkState rng s pos cs).2 = pos + s * ((cs.map List.length).sum) := by
  intro cs
  induction cs with
  | nil => intro pos; simp [mkState]
  | cons c t ih =>
    intro pos
    simp only [mkState]
    rw [ih, mkDimension_snd, List.length_map]
    simp only [List.map_cons, List.sum_cons]
    ring

theorem chunk_pieces_flatten (cs : ℕ) :
    ∀ (k : ℕ) (l : List ℕ),
      ((((List.range k).map fun i => (l.drop (i * cs)).take cs)
        ++ [l.drop (k * cs)]).flatten) = l := by
  intro k
  induction k with
  | zero => intro l; simp
  | succ k ih =>
    intro l
    rw [List.range_succ_eq_map]
    simp only [List.map_cons, List.map_map, List.cons_append,
      List.flatten_cons, Nat.zero_mul, List.drop_zero]
    have hfun :
        ((fun i => (l.drop (i * cs)).take cs) ∘ fun i => i + 1)
          = fun i => (((l.drop cs).drop (i * cs)).take cs) := by
      funext i
      simp only [Function.comp_apply, List.drop_drop]
      congr 1
      ring
    have hlast : l.drop ((k + 1) * cs) = (l.drop cs).drop (k * cs) := by
      rw [List.drop_drop]
      congr 1
      ring
    rw [hfun, hlast]
    have := ih (l.drop cs)
    simp only [List.flatten] at this ⊢
    rw [this]
    exact List.take_append_drop cs l

theorem digestChunks_flatten (dims : ℕ) (hd : 0 < dims) (d : List ℕ) :
    (digestChunks dims d).flatten = d := by
  obtain ⟨k, rfl⟩ : ∃ k, dims = k + 1 := ⟨dims - 1, by omega⟩
  unfold digestChunks
  rw [List.range_succ]
  simp only [List.map_append, List.map_cons, List.map_nil,
    Nat.add_sub_cancel]
  rw [List.map_congr_left (fun i hi => if_pos (List.mem_range.mp hi)),
    if_neg (lt_irrefl k)]
  exact chunk_pieces_flatten (d.length / (k + 1)) k d

theorem digestChunks_length_sum (dims : ℕ) (hd : 0 < dims) (d : List ℕ) :
    ((digestChunks dims d).map List.length).sum = d.length := by
  rw [← List.length_flatten, digestChunks_flatten dims hd d]

theorem mkState_digestChunks_snd (eng : Engine) (rng : Rng) (pos : ℕ)
    (digest : List ℕ) (hd : 0 < eng.dimensions) :
    (mkState rng eng.superposition_count pos
        (digestChunks eng.dimensions digest)).2
      = pos + eng.superposition_count * digest.length := by
  rw [mkState_snd, digestChunks_length_sum eng.dimensions hd digest]

theorem retryDim2_spec (rng : Rng) (n dim1 : ℕ) :
    ∀ (fuel pos d2 pos2 : ℕ),
      retryDim2 rng n dim1 pos fuel = some (d2, pos2) →
        d2 ≠ dim1 ∧ ∃ k, d2 = randrangeDraw (rng k) n := by
  intro fuel
  induction fuel with
  | zero => intro pos d2 pos2 h; exact absurd h (by simp [retryDim2])
  | succ fuel ih =>
    intro pos d2 pos2 h
    simp only [retryDim2] at h
    by_cases hc : randrangeDraw (rng pos) n = dim1
    · rw [if_pos hc] at h
      exact ih _ _ _ h
    · rw [if_neg hc] at h
      cases h
      exact ⟨hc, pos, rfl⟩

theorem randrangeDraw_lt (u : ℚ) (hu0 : 0 ≤ u) (hu1 : u < 1) (n : ℕ)
    (hn : 0 < n) : randrangeDraw u n < n := by
  unfold randrangeDraw
  have h0 : (0 : ℚ) ≤ u * n := by positivity
  rw [Nat.floor_lt h0]
  calc u * (n : ℚ) < 1 * n := by
        exact mul_lt_mul_of_pos_right hu1 (by exact_mod_cast hn)
  _ = n := one_mul _

theorem samplePair_spec (rng : Rng) (hr : ∀ k, 0 ≤ rng k ∧ rng k < 1)
    (n : ℕ) (hn : 0 < n) (pos fuel : ℕ) (p : ℕ × ℕ) (pos2 : ℕ)
    (h : samplePair rng n pos fuel = some (p, pos2)) :
    p.1 ≠ p.2 ∧ p.1 < n ∧ p.2 < n := by
  simp only [samplePair] at h
  cases hretry : retryDim2 rng n (randrangeDraw (rng pos) n) (pos + 1) fuel with
  | none => rw [hretry] at h; cases h
  | some r =>
    rw [hretry] at h
    cases h
    obtain ⟨hne, k, hk⟩ := retryDim2_spec rng n _ fuel (pos + 1) r.1 r.2 hretry
    refine ⟨fun he => hne ?_, ?_, ?_⟩
    · exact he.symm
    · exact randrangeDraw_lt (rng pos) (hr pos).1 (hr pos).2 n hn
    · rw [hk]
      exact randrangeDraw_lt (rng k) (hr k).1 (hr k).2 n hn

theorem samplePairs_spec (rng : Rng) (n : ℕ) :
    ∀ (count pos fuel : ℕ) (ps : List (ℕ × ℕ)) (pos2 : ℕ),
      samplePairs rng n count pos fuel = some (ps, pos2) →
        ps.length = count
          ∧ ((∀ k, 0 ≤ rng k ∧ rng k < 1) → 0 < n →
              ∀ p ∈ ps, p.1 ≠ p.2 ∧ p.1 < n ∧ p.2 < n) := by
  intro count
  induction count with
  | zero =>
    intro pos fuel ps pos2 h
    simp only [samplePairs] at h
    cases h
    exact ⟨rfl, fun _ _ p hp => absurd hp (List.not_mem_nil p)⟩
  | succ count ih =>
    intro pos fuel ps pos2 h
    simp only [samplePairs] at h
    cases h1 : samplePair rng n pos fuel with
    | none => rw [h1] at h; cases h
    | some r =>
      obtain ⟨p0, pos3⟩ := r
      rw [h1] at h
      dsimp only at h
      cases h2 : samplePairs rng n count pos3 fuel with
      | none => rw [h2] at h; cases h
      | some q =>
        obtain ⟨qs, pos4⟩ := q
        rw [h2] at h
        cases h
        obtain ⟨hlen, hmem⟩ := ih pos3 fuel qs _ h2
        constructor
        · simp [hlen]
        · intro hr hn p hp
          rcases List.mem_cons.mp hp with rfl | hp
          · exact samplePair_spec rng hr n hn pos fuel p pos3 h1
          · exact hmem hr hn p hp

theorem hash_to_quantum_state_inv (eng : Engine) (rng : Rng)
    (fuel pos : ℕ) (digest : List ℕ) (st : QState) (eng2 : Engine)
    (pos2 : ℕ)
    (h : _hash_to_quantum_state eng rng fuel pos digest
      = some (st, eng2, pos2)) :
    ∃ prs,
      samplePairs rng eng.dimensions (eng.dimensions / 2)
          ((mkState rng eng.superposition_count pos
            (digestChunks eng.dimensions digest)).2) fuel
        = some (prs, pos2)
      ∧ eng2 = { eng with entanglement_pairs := prs }
      ∧ st = (mkState rng eng.superposition_count pos
          (digestChunks eng.dimensions digest)).1 := by
  simp only [_hash_to_quantum_state] at h
  cases hsp : samplePairs rng eng.dimensions (eng.dimensions / 2)
      ((mkState rng eng.superposition_count pos
        (digestChunks eng.dimensions digest)).2) fuel with
  | none => rw [hsp] at h; cases h
  | some q =>
    obtain ⟨prs, pos3⟩ := q
    rw [hsp] at h
    cases h
    exact ⟨prs, rfl, rfl, rfl⟩

theorem hash_to_quantum_state_eq (eng : Engine) (rng : Rng)
    (fuel pos : ℕ) (digest : List ℕ) (prs : List (ℕ × ℕ)) (pos2 : ℕ)
    (h3 : samplePairs rng eng.dimensions (eng.dimensions / 2)
        ((mkState rng eng.superposition_count pos
          (digestChunks eng.dimensions digest)).2) fuel
      = some (prs, pos2)) :
    _hash_to_quantum_state eng rng fuel pos digest
      = some ((mkState rng eng.superposition_count pos
          (digestChunks eng.dimensions digest)).1,
        { eng with entanglement_pairs := prs }, pos2) := by
  simp only [_hash_to_quantum_state]
  rw [h3]

/-- C6: every coupling set produced by state construction contains
exactly `⌊D/2⌋` pairs, and every pair has two distinct dimension indices
in `[0, D)`. -/
theorem c6_coupling_cardinality (eng : Engine) (rng : Rng)
    (fuel pos : ℕ) (digest : List ℕ) (st : QState) (eng2 : Engine)
    (pos2 : ℕ) (hr : ∀ k, 0 ≤ rng k ∧ rng k < 1)
    (hd : 0 < eng.dimensions)
    (h : _hash_to_quantum_state eng rng fuel pos digest
      = some (st, eng2, pos2)) :
    eng2.entanglement_pairs.length = eng.dimensions / 2
      ∧ ∀ p ∈ eng2.entanglement_pairs,
          p.1 ≠ p.2 ∧ p.1 < eng.dimensions ∧ p.2 < eng.dimensions := by
  obtain ⟨prs, hsp, heng, -⟩ :=
    hash_to_quantum_state_inv eng rng fuel pos digest st eng2 pos2 h
  obtain ⟨hlen, hmem⟩ := samplePairs_spec rng eng.dimensions _ _ _ _ _ hsp
  subst heng
  exact ⟨hlen, hmem hr hd⟩

theorem jitterValue_mem (u : ℚ) (v : ℝ) :
    0 ≤ jitterValue u v ∧ jitterValue u v ≤ 1 :=
  ⟨le_min zero_le_one (le_max_left 0 _), min_le_left _ _⟩

theorem jitterVariant_in01 (rng : Rng) :
    ∀ (pos : ℕ) (vs : List ℝ), ValuesIn01 (jitterVariant rng pos vs) := by
  intro pos vs
  induction vs generalizing pos with
  | nil => intro x hx; simp [jitterVariant] at hx
  | cons v t ih =>
    intro x hx
    simp only [jitterVariant, List.mem_cons] at hx
    rcases hx with rfl | hx
    · exact jitterValue_mem _ _
    · exact ih (pos + 1) x hx

theorem mkDimension_in01 (rng : Rng) (s : ℕ) :
    ∀ (pos : ℕ) (values va : List ℝ),
      va ∈ (mkDimension rng s pos values).1 → ValuesIn01 va := by
  induction s with
  | zero => intro pos values va hva; simp [mkDimension] at hva
  | succ s ih =>
    intro pos values va hva
    simp only [mkDimension, List.mem_cons] at hva
    rcases hva with rfl | hva
    · exact jitterVariant_in01 rng pos values
    · exact ih (pos + values.length) values va hva

theorem mkState_in01 (rng : Rng) (s : ℕ) :
    ∀ (chunks : List (List ℕ)) (pos : ℕ),
      StateIn01 (mkState rng s pos chunks).1 := by
  intro chunks
  induction chunks with
  | nil => intro pos dim hdim; simp [mkState] at hdim
  | cons c t ih =>
    intro pos dim hdim
    simp only [mkState, List.mem_cons] at hdim
    rcases hdim with rfl | hdim
    · intro va hva; exact mkDimension_in01 rng s pos _ va hva
    · exact ih _ dim hdim

theorem transformValue_mem (x : ℝ) :
    0 ≤ transformValue x ∧ transformValue x ≤ 1 :=
  ⟨le_min zero_le_one (le_max_left 0 _), min_le_left _ _⟩

theorem normalizeVariant_in01 (v : List ℝ) (hv : ValuesIn01 v) :
    ValuesIn01 (normalizeVariant v) := by
  unfold normalizeVariant
  by_cases hs : v.sum > 0
  · rw [if_pos hs]
    intro x hx
    obtain ⟨y, hy, rfl⟩ := List.mem_map.mp hx
    constructor
    · exact div_nonneg (hv y hy).1 hs.le
    · rw [div_le_one hs]
      exact List.single_le_sum (fun z hz => (hv z hz).1) y hy
  · rw [if_neg hs]; exact hv

theorem transformVariant_in01 (v : List ℝ) :
    ValuesIn01 (transformVariant v) := by
  intro x hx
  simp only [transformVariant] at hx
  obtain ⟨y, hy, rfl⟩ := List.mem_map.mp hx
  exact transformValue_mem y

theorem couple_plus_mem (x y : ℝ) (hx : 0 ≤ x ∧ x ≤ 1)
    (hy : 0 ≤ y ∧ y ≤ 1) :
    0 ≤ (x + y) / 2 + |x - y| / 4 ∧ (x + y) / 2 + |x - y| / 4 ≤ 1 := by
  rcases abs_cases (x - y) with ⟨he, h2⟩ | ⟨he, h2⟩ <;> rw [he] <;>
    exact ⟨by linarith [hx.1, hx.2, hy.1, hy.2],
      by linarith [hx.1, hx.2, hy.1, hy.2]⟩

theorem couple_minus_mem (x y : ℝ) (hx : 0 ≤ x ∧ x ≤ 1)
    (hy : 0 ≤ y ∧ y ≤ 1) :
    0 ≤ (x + y) / 2 - |x - y| / 4 ∧ (x + y) / 2 - |x - y| / 4 ≤ 1 := by
  rcases abs_cases (x - y) with ⟨he, h2⟩ | ⟨he, h2⟩ <;> rw [he] <;>
    exact ⟨by linarith [hx.1, hx.2, hy.1, hy.2],
      by linarith [hx.1, hx.2, hy.1, hy.2]⟩

theorem valuesIn01_zipWith (f : ℝ → ℝ → ℝ)
    (hf : ∀ a b, 0 ≤ a ∧ a ≤ 1 → 0 ≤ b ∧ b ≤ 1 → 0 ≤ f a b ∧ f a b ≤ 1) :
    ∀ (v1 v2 : List ℝ), ValuesIn01 v1 → ValuesIn01 v2 →
      ValuesIn01 (List.zipWith f v1 v2) := by
  intro v1
  induction v1 with
  | nil => intro v2 _ _ x hx; simp at hx
  | cons a t ih =>
    intro v2 h1 h2 x hx
    cases v2 with
    | nil => simp at hx
    | cons b s =>
      simp only [List.zipWith_cons_cons, List.mem_cons] at hx
      rcases hx with rfl | hx
      · exact hf a b (h1 a (by simp)) (h2 b (by simp))
      · exact ih s (fun z hz => h1 z (List.mem_cons_of_mem a hz))
          (fun z hz => h2 z (List.mem_cons_of_mem b hz)) x hx

theorem coupleVariant_in01 (u : ℚ) (v1 v2 : List ℝ)
    (h1 : ValuesIn01 v1) (h2 : ValuesIn01 v2) :
    ValuesIn01 (coupleVariant u v1 v2).1
      ∧ ValuesIn01 (coupleVariant u v1 v2).2 := by
  unfold coupleVariant
  by_cases hu : u < 1 / 2
  · rw [if_pos hu]
    constructor
    · intro x hx
      rcases List.mem_append.mp hx with hx | hx
      · exact valuesIn01_zipWith _
          (fun a b ha hb => couple_plus_mem a b ha hb) v1 v2 h1 h2 x hx
      · exact h1 x (List.mem_of_mem_drop hx)
    · intro x hx
      rcases List.mem_append.mp hx with hx | hx
      · exact valuesIn01_zipWith _
          (fun a b ha hb => couple_minus_mem a b ha hb) v1 v2 h1 h2 x hx
      · exact h2 x (List.mem_of_mem_drop hx)
  · rw [if_neg hu]; exact ⟨h1, h2⟩

theorem coupleDims_in01 (rng : Rng) :
    ∀ (pos : ℕ) (l1 l2 : List (List ℝ)),
      (∀ va ∈ l1, ValuesIn01 va) → (∀ va ∈ l2, ValuesIn01 va) →
      (∀ va ∈ (coupleDims rng pos l1 l2).1.1, ValuesIn01 va)
        ∧ (∀ va ∈ (coupleDims rng pos l1 l2).1.2, ValuesIn01 va) := by
  intro pos l1
  induction l1 generalizing pos with
  | nil =>
    intro l2 h1 h2
    exact ⟨fun va hva => by simp [coupleDims] at hva, fun va hva => h2 va hva⟩
  | cons v1 t1 ih =>
    intro l2 h1 h2
    cases l2 with
    | nil =>
      exact ⟨fun va hva => h1 va hva, fun va hva => by simp [coupleDims] at hva⟩
    | cons v2 t2 =>
      simp only [coupleDims]
      have hc := coupleVariant_in01 (rng pos) v1 v2 (h1 v1 (by simp))
        (h2 v2 (by simp))
      have ht := ih (pos + 1) t2 (fun z hz => h1 z (List.mem_cons_of_mem _ hz))
        (fun z hz => h2 z (List.mem_cons_of_mem _ hz))
      constructor
      · intro va hva
        rcases List.mem_cons.mp hva with rfl | hva
        · exact hc.1
        · exact ht.1 va hva
      · intro va hva
        rcases List.mem_cons.mp hva with rfl | hva
        · exact hc.2
        · exact ht.2 va hva

theorem getD_mem_or_nil (st : QState) (i : ℕ) :
    st.getD i [] ∈ st ∨ st.getD i [] = [] := by
  by_cases hlt : i < st.length
  · left
    rw [List.getD_eq_getElem st [] hlt]
    exact List.getElem_mem hlt
  · right
    exact List.getD_eq_default st [] (le_of_not_lt hlt)

theorem applyPair_in01 (rng : Rng) (pos : ℕ) (st : QState) (d1 d2 : ℕ)
    (h : StateIn01 st) : StateIn01 (applyPair rng pos st d1 d2).1 := by
  have hget : ∀ i, ∀ va ∈ st.getD i [], ValuesIn01 va := by
    intro i va hva
    rcases getD_mem_or_nil st i with hmem | hnil
    · exact h _ hmem va hva
    · rw [hnil] at hva; simp at hva
  have hc := coupleDims_in01 rng pos (st.getD d1 []) (st.getD d2 [])
    (hget d1) (hget d2)
  simp only [applyPair]
  intro dim hdim
  rcases List.mem_or_eq_of_mem_set hdim with hdim | rfl
  · rcases List.mem_or_eq_of_mem_set hdim with hdim | rfl
    · exact h dim hdim
    · exact hc.1
  · exact hc.2

theorem transform_phase_in01 (st : QState) :
    StateIn01 (st.map fun dim => dim.map transformVariant) := by
  intro dim hdim
  obtain ⟨dim0, -, rfl⟩ := List.mem_map.mp hdim
  intro va hva
  obtain ⟨va0, -, rfl⟩ := List.mem_map.mp hva
  exact transformVariant_in01 va0

theorem foldl_applyPair_in01 (rng : Rng) (pairs : List (ℕ × ℕ)) :
    ∀ (acc : QState × ℕ), StateIn01 acc.1 →
      StateIn01 ((pairs.foldl
        (fun acc p => applyPair rng acc.2 acc.1 p.1 p.2) acc).1) := by
  induction pairs with
  | nil => intro acc h; exact h
  | cons p t ih =>
    intro acc h
    simp only [List.foldl_cons]
    exact ih _ (applyPair_in01 rng acc.2 acc.1 p.1 p.2 h)

theorem evolve_in01 (eng : Engine) (rng : Rng) (pos : ℕ) (st : QState) :
    StateIn01 ((_evolve_quantum_state eng rng pos st).1) := by
  simp only [_evolve_quantum_state]
  exact foldl_applyPair_in01 rng _ _ (transform_phase_in01 st)

theorem evolveSteps_in01 (eng : Engine) (rng : Rng) :
    ∀ (n pos : ℕ) (st : QState), StateIn01 st →
      StateIn01 ((evolveSteps eng rng n pos st).1) := by
  intro n
  induction n with
  | zero => intro pos st h; exact h
  | succ n ih =>
    intro pos st _
    simp only [evolveSteps]
    exact ih _ _ (evolve_in01 eng rng pos st)

/-- C9: every variant vector keeps its values in `[0,1]`: normalisation,
the clamped `sin(v·π)²` transform and the coupling replacement each map
`[0,1]` values to `[0,1]` values, the constructed state has all values in
`[0,1]`, and so does every state reached after any number of evolution
rounds. -/
theorem c9_value_range :
    (∀ v : List ℝ, ValuesIn01 v → ValuesIn01 (normalizeVariant v))
      ∧ (∀ v : List ℝ, ValuesIn01 v → ValuesIn01 (transformVariant v))
      ∧ (∀ (u : ℚ) (v1 v2 : List ℝ), ValuesIn01 v1 → ValuesIn01 v2 →
          ValuesIn01 (coupleVariant u v1 v2).1
            ∧ ValuesIn01 (coupleVariant u v1 v2).2)
      ∧ (∀ (rng : Rng) (s pos : ℕ) (chunks : List (List ℕ)),
          StateIn01 (mkState rng s pos chunks).1)
      ∧ (∀ (eng : Engine) (rng : Rng) (pos : ℕ) (st : QState),
          StateIn01 st → StateIn01 ((_evolve_quantum_state eng rng pos st).1))
      ∧ (∀ (eng : Engine) (rng : Rng) (n pos : ℕ) (st : QState),
          StateIn01 st → StateIn01 ((evolveSteps eng rng n pos st).1)) :=
  ⟨normalizeVariant_in01, fun v _ => transformVariant_in01 v,
    coupleVariant_in01,
    fun rng s pos chunks => mkState_in01 rng s chunks pos,
    fun eng rng pos st _ => evolve_in01 eng rng pos st,
    fun eng rng n pos st h => evolveSteps_in01 eng rng n pos st h⟩

/-- Witness for C9 at concrete inputs: the one-value variant `[1/2]`, the
state constructed from the empty digest with the concrete stream `rng0`,
and three evolution rounds. -/
theorem c9_value_range_witness :
    ValuesIn01 (normalizeVariant [1 / 2])
      ∧ StateIn01 ((evolveSteps Engine.start rng0 3 0
          (mkState rng0 16 0 (digestChunks 8 [])).1).1) := by
  constructor
  · exact c9_value_range.1 [1 / 2]
      (by intro x hx; rw [List.mem_singleton] at hx; subst hx; norm_num)
  · exact c9_value_range.2.2.2.2.2 Engine.start rng0 3 0 _
      (c9_value_range.2.2.2.1 rng0 16 0 (digestChunks 8 []))

theorem couple_sum_identity (x y : ℝ) :
    ((x + y) / 2 + |x - y| / 4) + ((x + y) / 2 - |x - y| / 4) = x + y := by
  ring

theorem zip_couple_getD_sum :
    ∀ (v1 v2 : List ℝ) (j : ℕ),
      (List.zipWith (fun x y => (x + y) / 2 + |x - y| / 4) v1 v2
          ++ v1.drop (min v1.length v2.length)).getD j 0
        + (List.zipWith (fun x y => (x + y) / 2 - |x - y| / 4) v1 v2
            ++ v2.drop (min v1.length v2.length)).getD j 0
        = v1.getD j 0 + v2.getD j 0 := by
  intro v1
  induction v1 with
  | nil => intro v2 j; simp
  | cons x t1 ih =>
    intro v2 j
    cases v2 with
    | nil => simp
    | cons y t2 =>
      cases j with
      | zero =>
        simp only [List.zipWith_cons_cons, List.length_cons,
          Nat.succ_min_succ, List.drop_succ_cons, List.cons_append,
          List.getD_cons_zero]
        ring
      | succ j =>
        simp only [List.zipWith_cons_cons, List.length_cons,
          Nat.succ_min_succ, List.drop_succ_cons, List.cons_append,
          List.getD_cons_succ]
        exact ih t2 j

theorem coupleVariant_getD_sum (u : ℚ) (v1 v2 : List ℝ) (j : ℕ) :
    (coupleVariant u v1 v2).1.getD j 0 + (coupleVariant u v1 v2).2.getD j 0
      = v1.getD j 0 + v2.getD j 0 := by
  unfold coupleVariant
  by_cases hu : u < 1 / 2
  · rw [if_pos hu]
    exact zip_couple_getD_sum v1 v2 j
  · rw [if_neg hu]

theorem coupleDims_getD_sum (rng : Rng) :
    ∀ (pos : ℕ) (l1 l2 : List (List ℝ)) (i j : ℕ),
      ((coupleDims rng pos l1 l2).1.1.getD i []).getD j 0
          + ((coupleDims rng pos l1 l2).1.2.getD i []).getD j 0
        = (l1.getD i []).getD j 0 + (l2.getD i []).getD j 0 := by
  intro pos l1
  induction l1 generalizing pos with
  | nil => intro l2 i j; simp [coupleDims]
  | cons v1 t1 ih =>
    intro l2 i j
    cases l2 with
    | nil => simp [coupleDims]
    | cons v2 t2 =>
      simp only [coupleDims]
      cases i with
      | zero =>
        simp only [List.getD_cons_zero]
        exact coupleVariant_getD_sum (rng pos) v1 v2 j
      | succ i =>
        simp only [List.getD_cons_succ]
        exact ih (pos + 1) t2 i j

/-- C10: the entangling replacement is sum-preserving on each affected
value pair — `(mean+diff) + (mean-diff) = x + y` — and therefore, for a
coupled pair of dimensions, the per-position sum of the two dimensions'
values is invariant under the coupling step whatever the random draws. -/
theorem c10_coupling_sum_preserving :
    (∀ x y : ℝ,
        ((x + y) / 2 + |x - y| / 4) + ((x + y) / 2 - |x - y| / 4) = x + y)
      ∧ (∀ (u : ℚ) (v1 v2 : List ℝ) (j : ℕ),
          (coupleVariant u v1 v2).1.getD j 0
              + (coupleVariant u v1 v2).2.getD j 0
            = v1.getD j 0 + v2.getD j 0)
      ∧ (∀ (rng : Rng) (pos : ℕ) (l1 l2 : List (List ℝ)) (i j : ℕ),
          ((coupleDims rng pos l1 l2).1.1.getD i []).getD j 0
              + ((coupleDims rng pos l1 l2).1.2.getD i []).getD j 0
            = (l1.getD i []).getD j 0 + (l2.getD i []).getD j 0) :=
  ⟨couple_sum_identity, coupleVariant_getD_sum,
    fun rng pos l1 l2 i j => coupleDims_getD_sum rng pos l1 l2 i j⟩

theorem sum_map_div (l : List ℝ) (s : ℝ) :
    (l.map fun x => x / s).sum = l.sum / s := by
  induction l with
  | nil => simp
  | cons a t ih => simp [ih, add_div]

theorem normalizeRow_length (row : List ℝ) :
    (normalizeRow row).length = row.length := by
  unfold normalizeRow
  split <;> rw [List.length_map]

theorem normalizeRow_sum_eq_one (row : List ℝ) (hs : row.sum ≠ 0) :
    (normalizeRow row).sum = 1 := by
  rw [normalizeRow, if_neg hs, sum_map_div, div_self hs]

theorem normalizeRow_zero_iff (row : List ℝ) :
    (∀ x ∈ normalizeRow row, x = 0) ↔ row.sum = 0 := by
  constructor
  · intro h
    by_contra hs
    have hall : ∀ x ∈ row, x = 0 := by
      intro x hx
      have hz := h (x / row.sum) (by
        rw [normalizeRow, if_neg hs]
        exact List.mem_map_of_mem _ hx)
      rcases div_eq_zero_iff.mp hz with hz | hz
      · exact hz
      · exact absurd hz hs
    exact hs (List.sum_eq_zero hall)
  · intro hs x hx
    rw [normalizeRow, if_pos hs] at hx
    obtain ⟨y, -, rfl⟩ := List.mem_map.mp hx
    rfl

theorem normalizedMatrix_getD (m : List (List ℝ)) (i : ℕ)
    (hi : i < m.length) :
    (normalizedMatrix m).getD i [] = normalizeRow (m.getD i []) := by
  rw [normalizedMatrix,
    List.getD_eq_getElem _ _ (by simpa using hi),
    List.getElem_map, List.getD_eq_getElem _ _ hi]

theorem collapsedMatrix_length (dims : ℕ) (st : QState) :
    (collapsedMatrix dims st).length = dims := by
  rw [collapsedMatrix, List.length_map, List.length_range]

/-- C2: each row of the amplitude matrix produced by the analyzer sums to
1.0 (within 1e-9; in the real-number model it is exactly 1) or is exactly
all-zero, and the all-zero case occurs exactly when the row's
pre-normalisation (collapsed) sum was zero. -/
theorem c2_row_stochastic (eng : Engine) (rng : Rng) (pos : ℕ)
    (st : QState) (i : ℕ) (hi : i < eng.dimensions) :
    ((_analyze_quantum_state eng rng pos st).1.amplitudes).length
        = eng.dimensions
      ∧ (|(((_analyze_quantum_state eng rng pos st).1.amplitudes).getD
              i []).sum - 1| ≤ 1 / 1000000000
          ∨ ∀ x ∈ ((_analyze_quantum_state eng rng pos
              st).1.amplitudes).getD i [], x = 0)
      ∧ ((∀ x ∈ ((_analyze_quantum_state eng rng pos
            st).1.amplitudes).getD i [], x = 0)
          ↔ ((collapsedMatrix eng.dimensions st).getD i []).sum = 0) := by
  have hamp : (_analyze_quantum_state eng rng pos st).1.amplitudes
      = normalizedMatrix (collapsedMatrix eng.dimensions st) := rfl
  have hlen : i < (collapsedMatrix eng.dimensions st).length := by
    rw [collapsedMatrix_length]; exact hi
  rw [hamp, normalizedMatrix_getD _ _ hlen]
  refine ⟨?_, ?_, normalizeRow_zero_iff _⟩
  · rw [normalizedMatrix, List.length_map, collapsedMatrix_length]
  · by_cases hs : ((collapsedMatrix eng.dimensions st).getD i []).sum = 0
    · right
      exact (normalizeRow_zero_iff _).mpr hs
    · left
      rw [normalizeRow_sum_eq_one _ hs]
      norm_num

theorem rng0_bounds : ∀ k, 0 ≤ rng0 k ∧ rng0 k < 1 := by
  intro k
  have h2 : k % 2 < 2 := Nat.mod_lt k (by norm_num)
  unfold rng0
  constructor
  · positivity
  · rw [div_lt_one (by norm_num)]
    exact_mod_cast lt_of_lt_of_le h2 (by norm_num)

/-- Witness for C6: a concrete successful state construction from the
empty digest with the stream `rng0` (whose draws lie in `[0,1)`). -/
theorem c6_coupling_cardinality_witness :
    ∃ out : QState × Engine × ℕ,
      _hash_to_quantum_state Engine.start rng0 8 0 [] = some out
        ∧ out.2.1.entanglement_pairs.length = Engine.start.dimensions / 2
        ∧ ∀ p ∈ out.2.1.entanglement_pairs,
            p.1 ≠ p.2 ∧ p.1 < Engine.start.dimensions
              ∧ p.2 < Engine.start.dimensions := by
  have hsnd : (mkState rng0 Engine.start.superposition_count 0
      (digestChunks Engine.start.dimensions [])).2 = 0 := by
    rw [mkState_digestChunks_snd Engine.start rng0 0 [] (by decide)]
    rfl
  have h3 : samplePairs rng0 Engine.start.dimensions
      (Engine.start.dimensions / 2)
      ((mkState rng0 Engine.start.superposition_count 0
        (digestChunks Engine.start.dimensions [])).2) 8
      = some ([(0, 1), (0, 1), (0, 1), (0, 1)], 8) := by
    rw [hsnd]
    norm_num [Engine.start, samplePairs, samplePair, retryDim2,
      randrangeDraw, rng0]
  have heq := hash_to_quantum_state_eq Engine.start rng0 8 0 []
    [(0, 1), (0, 1), (0, 1), (0, 1)] 8 h3
  have hres := c6_coupling_cardinality Engine.start rng0 8 0 [] _ _ _
    rng0_bounds (by decide) heq
  exact ⟨_, heq, hres.1, hres.2⟩

theorem uniformDraw_mem (u : ℚ) (hu0 : 0 ≤ u) (hu1 : u < 1) (b : ℝ)
    (hb : 0 < b) : 0 ≤ uniformDraw u 0 b ∧ uniformDraw u 0 b < b := by
  have he : uniformDraw u 0 b = b * (u : ℝ) := by unfold uniformDraw; ring
  have h0 : (0 : ℝ) ≤ (u : ℝ) := by exact_mod_cast hu0
  have h1 : (u : ℝ) < 1 := by exact_mod_cast hu1
  rw [he]
  refine ⟨mul_nonneg hb.le h0, ?_⟩
  calc b * (u : ℝ) < b * 1 := mul_lt_mul_of_pos_left h1 hb
  _ = b := mul_one b

theorem pymod_mem (x y : ℝ) (hy : 0 < y) :
    0 ≤ pymod x y ∧ pymod x y < y := by
  have he : pymod x y = y * Int.fract (x / y) := by
    unfold pymod
    rw [Int.fract, mul_sub, mul_div_cancel₀ x hy.ne']
  rw [he]
  refine ⟨mul_nonneg hy.le (Int.fract_nonneg _), ?_⟩
  calc y * Int.fract (x / y) < y * 1 :=
        mul_lt_mul_of_pos_left (Int.fract_lt_one _) hy
  _ = y := mul_one y

theorem range_getD (n i : ℕ) (h : i < n) : (List.range n).getD i 0 = i := by
  rw [List.getD_eq_getElem _ _ (by simpa using h)]
  simp

theorem phaseRow_spec (pairs : List (ℕ × ℕ)) (rng : Rng) (i : ℕ)
    (hr : ∀ k, 0 ≤ rng k ∧ rng k < 1) :
    ∀ (js : List ℕ) (pos jdx : ℕ), jdx < js.length →
      (0 ≤ ((phaseRow pairs rng i pos js).1).getD jdx 0
          ∧ ((phaseRow pairs rng i pos js).1).getD jdx 0 < 2 * Real.pi)
        ∧ (isCoupled pairs i (js.getD jdx 0) = true →
            ∃ k, ((phaseRow pairs rng i pos js).1).getD jdx 0
              = uniformDraw (rng k) 0 (2 * Real.pi))
        ∧ (isCoupled pairs i (js.getD jdx 0) = false →
            ((phaseRow pairs rng i pos js).1).getD jdx 0
              = pymod ((i * js.getD jdx 0 : ℕ) : ℝ) (2 * Real.pi)) := by
  have hpi : (0 : ℝ) < 2 * Real.pi := by positivity
  intro js
  induction js with
  | nil => intro pos jdx h; simp at h
  | cons j js ih =>
    intro pos jdx hlt
    by_cases hc : isCoupled pairs i j = true
    · cases jdx with
      | zero =>
        simp only [phaseRow, if_pos hc, List.getD_cons_zero]
        refine ⟨uniformDraw_mem (rng pos) (hr pos).1 (hr pos).2 _ hpi,
          fun _ => ⟨pos, rfl⟩, fun hcf => ?_⟩
        rw [hc] at hcf
        cases hcf
      | succ jdx =>
        simp only [phaseRow, if_pos hc, List.getD_cons_succ]
        exact ih (pos + 1) jdx (by simpa using hlt)
    · cases jdx with
      | zero =>
        simp only [phaseRow, if_neg hc, List.getD_cons_zero]
        exact ⟨pymod_mem _ _ hpi, fun hct => absurd hct hc, by simp⟩
      | succ jdx =>
        simp only [phaseRow, if_neg hc, List.getD_cons_succ]
        exact ih pos jdx (by simpa using hlt)

theorem phasesMatrix_spec (pairs : List (ℕ × ℕ)) (rng : Rng) (dims : ℕ)
    (hr : ∀ k, 0 ≤ rng k ∧ rng k < 1) :
    ∀ (irows : List ℕ) (pos idx : ℕ), idx < irows.length →
    ∀ j : ℕ, j < dims →
      (0 ≤ (((phasesMatrix pairs rng dims pos irows).1).getD
              idx []).getD j 0
          ∧ (((phasesMatrix pairs rng dims pos irows).1).getD
              idx []).getD j 0 < 2 * Real.pi)
        ∧ (isCoupled pairs (irows.getD idx 0) j = true →
            ∃ k, (((phasesMatrix pairs rng dims pos irows).1).getD
                idx []).getD j 0 = uniformDraw (rng k) 0 (2 * Real.pi))
        ∧ (isCoupled pairs (irows.getD idx 0) j = false →
            (((phasesMatrix pairs rng dims pos irows).1).getD
                idx []).getD j 0
              = pymod ((irows.getD idx 0 * j : ℕ) : ℝ) (2 * Real.pi)) := by
  intro irows
  induction irows with
  | nil => intro pos idx h; simp at h
  | cons i0 irest ih =>
    intro pos idx hidx j hj
    cases idx with
    | zero =>
      simp only [phasesMatrix, List.getD_cons_zero]
      have hrow := phaseRow_spec pairs rng i0 hr (List.range dims) pos j
        (by simpa using hj)
      rw [range_getD dims j hj] at hrow
      exact hrow
    | succ idx =>
      simp only [phasesMatrix, List.getD_cons_succ]
      exact ih _ idx (by simpa using hidx) j hj

/-- C7: every phase-matrix entry lies in `[0, 2π)`; an entry whose row or
column index participates in a coupling pair is a uniform draw from
`[0, 2π)` (one scaled stream draw), and every other entry equals
`(i*j) mod 2π`. -/
theorem c7_phase_range (eng : Engine) (rng : Rng) (pos : ℕ) (st : QState)
    (i j : ℕ) (hr : ∀ k, 0 ≤ rng k ∧ rng k < 1)
    (hi : i < eng.dimensions) (hj : j < eng.dimensions) :
    (0 ≤ (((_analyze_quantum_state eng rng pos st).1.phases).getD
            i []).getD j 0
        ∧ (((_analyze_quantum_state eng rng pos st).1.phases).getD
            i []).getD j 0 < 2 * Real.pi)
      ∧ (isCoupled eng.entanglement_pairs i j = true →
          ∃ k, (((_analyze_quantum_state eng rng pos st).1.phases).getD
              i []).getD j 0 = uniformDraw (rng k) 0 (2 * Real.pi))
      ∧ (isCoupled eng.entanglement_pairs i j = false →
          (((_analyze_quantum_state eng rng pos st).1.phases).getD
              i []).getD j 0 = pymod ((i * j : ℕ) : ℝ) (2 * Real.pi)) := by
  have hph : (_analyze_quantum_state eng rng pos st).1.phases
      = (phasesMatrix eng.entanglement_pairs rng eng.dimensions pos
          (List.range eng.dimensions)).1 := rfl
  have hmain := phasesMatrix_spec eng.entanglement_pairs rng eng.dimensions
    hr (List.range eng.dimensions) pos i (by simpa using hi) j hj
  rw [range_getD eng.dimensions i hi] at hmain
  rw [hph]
  exact hmain

/-- Witness for C7 at concrete inputs: the engine as constructed (empty
coupling list, so cell (0,1) is uncoupled), the concrete stream `rng0`,
and the empty state. -/
theorem c7_phase_range_witness :
    0 ≤ (((_analyze_quantum_state Engine.start rng0 0 []).1.phases).getD
        0 []).getD 1 0
      ∧ (isCoupled Engine.start.entanglement_pairs 0 1 = false →
          (((_analyze_quantum_state Engine.start rng0 0 []).1.phases).getD
              0 []).getD 1 0 = pymod ((0 * 1 : ℕ) : ℝ) (2 * Real.pi)) := by
  have h := c7_phase_range Engine.start rng0 0 [] 0 1 rng0_bounds
    (by decide) (by decide)
  exact ⟨h.1.1, h.2.2⟩

theorem take_getD_mem01 (v : List ℝ) (dims j : ℕ) (hv : ValuesIn01 v) :
    0 ≤ (v.take dims).getD j 0 ∧ (v.take dims).getD j 0 ≤ 1 := by
  by_cases hj : j < (v.take dims).length
  · rw [List.getD_eq_getElem _ _ hj]
    exact hv _ (List.mem_of_mem_take (List.getElem_mem hj))
  · rw [List.getD_eq_default _ _ (le_of_not_lt hj)]
    norm_num

theorem normalizeRow_mem01 (row : List ℝ) (h : ∀ x ∈ row, 0 ≤ x) :
    ∀ x ∈ normalizeRow row, 0 ≤ x ∧ x ≤ 1 := by
  unfold normalizeRow
  by_cases hs : row.sum = 0
  · rw [if_pos hs]
    intro x hx
    obtain ⟨y, -, rfl⟩ := List.mem_map.mp hx
    norm_num
  · rw [if_neg hs]
    have hpos : 0 < row.sum := lt_of_le_of_ne (List.sum_nonneg h) (Ne.symm hs)
    intro x hx
    obtain ⟨y, hy, rfl⟩ := List.mem_map.mp hx
    refine ⟨div_nonneg (h y hy) hpos.le, ?_⟩
    rw [div_le_one hpos]
    exact List.single_le_sum h y hy

theorem amplitudes_mem01 (dims : ℕ) (st : QState) (h : StateIn01 st) :
    ∀ x ∈ (normalizedMatrix (collapsedMatrix dims st)).flatten,
      0 ≤ x ∧ x ≤ 1 := by
  intro x hx
  obtain ⟨row, hrow, hxrow⟩ := List.mem_flatten.mp hx
  obtain ⟨row0, hrow0, rfl⟩ := List.mem_map.mp hrow
  refine normalizeRow_mem01 row0 ?_ x hxrow
  intro z hz
  obtain ⟨i, -, rfl⟩ := List.mem_map.mp hrow0
  obtain ⟨j, -, rfl⟩ := List.mem_map.mp hz
  apply List.sum_nonneg
  intro w hw
  obtain ⟨v, hv, rfl⟩ := List.mem_map.mp hw
  rcases getD_mem_or_nil st i with hmem | hnil
  · exact (take_getD_mem01 v dims j (h _ hmem v hv)).1
  · rw [hnil] at hv; simp at hv

theorem amplitudes_flatten_length (dims : ℕ) (st : QState) :
    (normalizedMatrix (collapsedMatrix dims st)).flatten.length
      = dims * dims := by
  rw [List.length_flatten, normalizedMatrix, collapsedMatrix, List.map_map,
    List.map_map]
  rw [List.map_congr_left (g := fun _ => dims) (by
    intro a _
    simp [Function.comp, normalizeRow_length, List.length_map,
      List.length_range])]
  rw [show (List.range dims).map (fun _ => dims)
      = List.replicate dims dims by simp, List.sum_replicate, smul_eq_mul]

theorem entropyTerm_nonneg (a : ℝ) (h : 0 ≤ a ∧ a ≤ 1) :
    0 ≤ entropyTerm a := by
  unfold entropyTerm
  by_cases ha : a > 0
  · rw [if_pos ha]
    have hlog : Real.logb 2 a ≤ 0 := Real.logb_nonpos (by norm_num) h.1 h.2
    have hmul : a * Real.logb 2 a ≤ 0 :=
      mul_nonpos_of_nonneg_of_nonpos h.1 hlog
    linarith
  · rw [if_neg ha]

theorem amplitudeEntropy_nonneg (flat : List ℝ)
    (h : ∀ x ∈ flat, 0 ≤ x ∧ x ≤ 1) : 0 ≤ amplitudeEntropy flat := by
  apply List.sum_nonneg
  intro x hx
  obtain ⟨y, hy, rfl⟩ := List.mem_map.mp hx
  exact entropyTerm_nonneg y (h y hy)

theorem uniqueness_formula (eng : Engine) (sig : SigData)
    (hflat : ∀ x ∈ sig.amplitudes.flatten, 0 ≤ x ∧ x ≤ 1)
    (hlen : sig.amplitudes.flatten.length = 64)
    (hpairs : sig.entanglement.length = 4)
    (hdims : eng.dimensions = 8) :
    _calculate_uniqueness eng sig
        = max 0 (min 1
            ((amplitudeEntropy sig.amplitudes.flatten
                / Real.logb 2 ((8 : ℝ) ^ 2)) * (7 / 10)
              + (min 1 (max 0 ((sig.entanglement.length : ℝ)
                  / ((8 : ℝ) / 2)))) * (3 / 10)))
      ∧ 0 ≤ _calculate_uniqueness eng sig
      ∧ _calculate_uniqueness eng sig ≤ 1 := by
  have hH : 0 ≤ amplitudeEntropy sig.amplitudes.flatten :=
    amplitudeEntropy_nonneg _ hflat
  have hlog64 : Real.logb 2 ((sig.amplitudes.flatten.length : ℕ) : ℝ)
      = 6 := by
    rw [hlen, show ((64 : ℕ) : ℝ) = 2 ^ (6 : ℕ) by norm_num, Real.logb_pow,
      Real.logb_self_eq_one (by norm_num)]
    norm_num
  have hlog82 : Real.logb 2 ((8 : ℝ) ^ 2) = 6 := by
    rw [show ((8 : ℝ) ^ 2) = 2 ^ (6 : ℕ) by norm_num, Real.logb_pow,
      Real.logb_self_eq_one (by norm_num)]
    norm_num
  have hef : ((sig.entanglement.length : ℕ) : ℝ) / ((eng.dimensions : ℝ) / 2)
      = 1 := by
    rw [hpairs, hdims]
    norm_num
  simp only [_calculate_uniqueness, hlog64, hef]
  rw [if_pos (by norm_num : (6 : ℝ) > 0), hlog82]
  have hefr : ((sig.entanglement.length : ℕ) : ℝ) / ((8 : ℝ) / 2) = 1 := by
    rw [hpairs]; norm_num
  rw [hefr]
  have hXnn : 0 ≤ amplitudeEntropy sig.amplitudes.flatten / 6 * (7 / 10)
      + 1 * (3 / 10) := by positivity
  refine ⟨?_, ?_, min_le_left _ _⟩
  · rw [show min 1 (max 0 (1 : ℝ)) = 1 by norm_num,
      max_eq_right (le_min (by norm_num) hXnn)]
  · exact le_min (by norm_num) hXnn

theorem generate_signature_eq (hp : HashPrimitives) (fs : Filesystem)
    (rng : Rng) (fuel : ℕ) (eng : Engine) (path : String)
    (evolution : Bool) (d : List ℕ) (st0 : QState) (eng2 : Engine)
    (pos : ℕ)
    (h2 : _calculate_complex_hash hp fs path = some d)
    (hq : _hash_to_quantum_state eng rng fuel 0 d
      = some (st0, eng2, pos)) :
    generate_signature hp fs rng fuel eng path evolution
      = (some
          ⟨(_analyze_quantum_state eng2 rng
              (if evolution then
                evolveSteps eng2 rng eng2.evolution_steps pos st0
              else (st0, pos)).2
              (if evolution then
                evolveSteps eng2 rng eng2.evolution_steps pos st0
              else (st0, pos)).1).1,
            _visualize_quantum_signature eng2
              (_analyze_quantum_state eng2 rng
                (if evolution then
                  evolveSteps eng2 rng eng2.evolution_steps pos st0
                else (st0, pos)).2
                (if evolution then
                  evolveSteps eng2 rng eng2.evolution_steps pos st0
                else (st0, pos)).1).1,
            eng2.confidence_level,
            _calculate_uniqueness eng2
              (_analyze_quantum_state eng2 rng
                (if evolution then
                  evolveSteps eng2 rng eng2.evolution_steps pos st0
                else (st0, pos)).2
                (if evolution then
                  evolveSteps eng2 rng eng2.evolution_steps pos st0
                else (st0, pos)).1).1⟩,
          eng2) := by
  simp only [generate_signature, h2, hq]

theorem generate_success (hp : HashPrimitives) (fs : Filesystem)
    (rng : Rng) (fuel : ℕ) (eng : Engine) (path : String)
    (evolution : Bool) (d : List ℕ) (prs : List (ℕ × ℕ)) (pos2 : ℕ)
    (hd : 0 < eng.dimensions)
    (h2 : _calculate_complex_hash hp fs path = some d)
    (h3 : samplePairs rng eng.dimensions (eng.dimensions / 2)
        (eng.superposition_count * d.length) fuel = some (prs, pos2)) :
    ∃ (res : SigResult) (stFinal : QState),
      generate_signature hp fs rng fuel eng path evolution
          = (some res, { eng with entanglement_pairs := prs })
        ∧ res.signature_data.entanglement = prs
        ∧ res.signature_data.amplitudes
            = normalizedMatrix (collapsedMatrix eng.dimensions stFinal)
        ∧ StateIn01 stFinal
        ∧ res.confidence = eng.confidence_level
        ∧ res.uniqueness_score
            = _calculate_uniqueness { eng with entanglement_pairs := prs }
                res.signature_data
        ∧ res.signature_image
            = _visualize_quantum_signature
                { eng with entanglement_pairs := prs }
                res.signature_data := by
  have h3' : samplePairs rng eng.dimensions (eng.dimensions / 2)
      ((mkState rng eng.superposition_count 0
        (digestChunks eng.dimensions d)).2) fuel = some (prs, pos2) := by
    rw [mkState_digestChunks_snd eng rng 0 d hd, zero_add]
    exact h3
  have hq := hash_to_quantum_state_eq eng rng fuel 0 d prs pos2 h3'
  have hgen := generate_signature_eq hp fs rng fuel eng path evolution d
    _ _ _ h2 hq
  refine ⟨_, _, hgen, rfl, rfl, ?_, rfl, rfl, rfl⟩
  cases evolution with
  | false => exact mkState_in01 rng eng.superposition_count _ 0
  | true =>
    exact evolveSteps_in01 _ rng _ _ _
      (mkState_in01 rng eng.superposition_count _ 0)

theorem generate_none_of_fs_none (hp : HashPrimitives) (fs : Filesystem)
    (rng : Rng) (fuel : ℕ) (eng : Engine) (path : String)
    (evolution : Bool) (h : fs path = none) :
    generate_signature hp fs rng fuel eng path evolution = (none, eng) := by
  simp only [generate_signature, _calculate_complex_hash, h]

/-- C1 counterexample: two distinct missing paths produce the identical
return value `(None, engine)`, so the returned failure is the bare `None`
of the `except` block — no tagged error object carrying the failing path
is returned (the claim as stated is false of the code, which only prints
the exception). -/
theorem c1_counterexample :
    generate_signature hp0 fsNone rng0 8 Engine.start "a" true
        = generate_signature hp0 fsNone rng0 8 Engine.start "b" true
      ∧ fsNone "a" = none ∧ fsNone "b" = none ∧ "a" ≠ "b"
      ∧ (generate_signature hp0 fsNone rng0 8 Engine.start "a" true).1
          = none := by
  have ha := generate_none_of_fs_none hp0 fsNone rng0 8 Engine.start "a"
    true rfl
  have hb := generate_none_of_fs_none hp0 fsNone rng0 8 Engine.start "b"
    true rfl
  refine ⟨ha.trans hb.symm, rfl, rfl, by decide, ?_⟩
  rw [ha]

/-- C1 (amended): for every path whose file does not exist or is
unreadable, `generate_signature` returns `None` and leaves the engine
unchanged — no partial `SignatureResult` is returned, but also no tagged
error value carrying the failing path (the exception is only printed). -/
theorem c1_error_returns_none (hp : HashPrimitives) (fs : Filesystem)
    (rng : Rng) (fuel : ℕ) (eng : Engine) (path : String)
    (evolution : Bool) (h : fs path = none) :
    generate_signature hp fs rng fuel eng path evolution = (none, eng) :=
  generate_none_of_fs_none hp fs rng fuel eng path evolution h

/-- Witness for C1 (amended) at a concrete missing path. -/
theorem c1_error_returns_none_witness :
    generate_signature hp0 fsNone rng0 8 Engine.start "missing" true
      = (none, Engine.start) :=
  c1_error_returns_none hp0 fsNone rng0 8 Engine.start "missing" true rfl

/-- C4 counterexample: a concrete successful `generate_signature` call
after which the engine's `entanglement_pairs` field differs from its
construction value `[]` — the coupling set IS retained as mutable state
on the engine instance, so the engine's fields after a call do not all
equal the fixed configuration from construction. -/
theorem c4_counterexample :
    ∃ res : SigResult,
      generate_signature hp0 fs0 rng0 8 Engine.start "f" true
          = (some res, { Engine.start with
              entanglement_pairs := [(0, 1), (0, 1), (0, 1), (0, 1)] })
        ∧ ([(0, 1), (0, 1), (0, 1), (0, 1)] : List (ℕ × ℕ))
            ≠ Engine.start.entanglement_pairs := by
  have h2 : _calculate_complex_hash hp0 fs0 "f" = some [] := by
    simp [_calculate_complex_hash, fs0, wholeFileDigest, hp0]
  have h3 : samplePairs rng0 8 4 0 8
      = some ([(0, 1), (0, 1), (0, 1), (0, 1)], 8) := by
    norm_num [samplePairs, samplePair, retryDim2, randrangeDraw, rng0]
  obtain ⟨res, stF, hgen, -⟩ := generate_success hp0 fs0 rng0 8
    Engine.start "f" true [] [(0, 1), (0, 1), (0, 1), (0, 1)] 8
    (by decide) h2 h3
  exact ⟨res, hgen, by decide⟩

/-- C4 (amended): after every successful `generate_signature` call the
engine equals its pre-call state EXCEPT that `entanglement_pairs` now
holds the coupling set of that call (which has `⌊D/2⌋` entries); the
remaining configuration fields are unchanged. -/
theorem c4_engine_mutation (hp : HashPrimitives) (fs : Filesystem)
    (rng : Rng) (fuel : ℕ) (eng : Engine) (path : String)
    (evolution : Bool) (res : SigResult) (eng2 : Engine)
    (h : generate_signature hp fs rng fuel eng path evolution
      = (some res, eng2)) :
    eng2 = { eng with
        entanglement_pairs := res.signature_data.entanglement }
      ∧ res.signature_data.entanglement.length = eng.dimensions / 2
      ∧ eng2.dimensions = eng.dimensions
      ∧ eng2.resolution = eng.resolution
      ∧ eng2.superposition_count = eng.superposition_count
      ∧ eng2.confidence_level = eng.confidence_level
      ∧ eng2.evolution_steps = eng.evolution_steps := by
  simp only [generate_signature] at h
  split at h
  · simp at h
  · split at h
    · simp at h
    · rename_i x content hhash hscrut st engX pos hq
      obtain ⟨prs, hsp, hengX, -⟩ :=
        hash_to_quantum_state_inv eng rng fuel 0 content st engX pos hq
      have hres1 : some _ = some res := congrArg Prod.fst h
      have hres2 : engX = eng2 := congrArg Prod.snd h
      replace hres1 := Option.some.inj hres1
      have hlen := (samplePairs_spec rng eng.dimensions _ _ _ _ _ hsp).1
      subst hres1
      subst hengX
      subst hres2
      exact ⟨rfl, hlen, rfl, rfl, rfl, rfl, rfl⟩

/-- Witness for C4 (amended) at a concrete successful call. -/
theorem c4_engine_mutation_witness :
    ∃ (res : SigResult) (eng2 : Engine),
      generate_signature hp0 fs0 rng0 8 Engine.start "f" true
          = (some res, eng2)
        ∧ eng2 = { Engine.start with
            entanglement_pairs := res.signature_data.entanglement }
        ∧ res.signature_data.entanglement.length
            = Engine.start.dimensions / 2 := by
  have h2 : _calculate_complex_hash hp0 fs0 "f" = some [] := by
    simp [_calculate_complex_hash, fs0, wholeFileDigest, hp0]
  have h3 : samplePairs rng0 8 4 0 8
      = some ([(0, 1), (0, 1), (0, 1), (0, 1)], 8) := by
    norm_num [samplePairs, samplePair, retryDim2, randrangeDraw, rng0]
  obtain ⟨res, stF, hgen, -⟩ := generate_success hp0 fs0 rng0 8
    Engine.start "f" true [] [(0, 1), (0, 1), (0, 1), (0, 1)] 8
    (by decide) h2 h3
  have hm := c4_engine_mutation hp0 fs0 rng0 8 Engine.start "f" true res
    _ hgen
  exact ⟨res, _, hgen, hm.1, hm.2.1⟩

/-- Witness for C2 at a concrete analyzer call (engine as constructed,
concrete stream, empty state, row 0). -/
theorem c2_row_stochastic_witness :
    ((_analyze_quantum_state Engine.start rng0 0 []).1.amplitudes).length
      = Engine.start.dimensions :=
  (c2_row_stochastic Engine.start rng0 0 [] 0 (by decide)).1

/-- C3: for every successful `generate_signature` call on the engine as
constructed, the uniqueness score equals
`clamp(0.7·H_norm + 0.3·entanglement_factor, 0, 1)` where `H_norm` is the
Shannon entropy of the amplitude entries divided by `log2(D²)` and the
entanglement factor is `|CouplingSet|/(D/2)` clamped to `[0,1]`; in
particular the score lies in `[0,1]`. -/
theorem c3_uniqueness_formula (hp : HashPrimitives) (fs : Filesystem)
    (rng : Rng) (fuel : ℕ) (path : String) (evolution : Bool)
    (d : List ℕ) (prs : List (ℕ × ℕ)) (pos2 : ℕ)
    (h2 : _calculate_complex_hash hp fs path = some d)
    (h3 : samplePairs rng 8 4 (16 * d.length) fuel = some (prs, pos2)) :
    ∃ res : SigResult,
      (generate_signature hp fs rng fuel Engine.start path evolution).1
          = some res
        ∧ res.uniqueness_score
            = max 0 (min 1
                ((amplitudeEntropy res.signature_data.amplitudes.flatten
                    / Real.logb 2 ((8 : ℝ) ^ 2)) * (7 / 10)
                  + (min 1 (max 0
                      ((res.signature_data.entanglement.length : ℝ)
                        / ((8 : ℝ) / 2)))) * (3 / 10)))
        ∧ 0 ≤ res.uniqueness_score ∧ res.uniqueness_score ≤ 1 := by
  obtain ⟨res, stF, hgen, hent, hamp, hin01, hconf, huniq, himg⟩ :=
    generate_success hp fs rng fuel Engine.start path evolution d prs pos2
      (by decide) h2 h3
  have hlen4 : res.signature_data.entanglement.length = 4 := by
    rw [hent]
    exact (samplePairs_spec rng 8 4 (16 * d.length) fuel prs pos2 h3).1
  have hflat : ∀ x ∈ res.signature_data.amplitudes.flatten,
      0 ≤ x ∧ x ≤ 1 := by
    rw [hamp]
    exact amplitudes_mem01 _ stF hin01
  have hlen64 : res.signature_data.amplitudes.flatten.length = 64 := by
    rw [hamp, amplitudes_flatten_length]
    rfl
  obtain ⟨hformula, hlb, hub⟩ := uniqueness_formula
    { Engine.start with entanglement_pairs := prs } res.signature_data
    hflat hlen64 hlen4 rfl
  refine ⟨res, by rw [hgen], ?_, ?_, ?_⟩
  · rw [huniq]
    exact hformula
  · rw [huniq]
    exact hlb
  · rw [huniq]
    exact hub

/-- Witness for C3 at a concrete successful call (empty file, constant
hash primitives, the concrete stream `rng0`). -/
theorem c3_uniqueness_formula_witness :
    ∃ res : SigResult,
      (generate_signature hp0 fs0 rng0 8 Engine.start "f" true).1
          = some res
        ∧ 0 ≤ res.uniqueness_score ∧ res.uniqueness_score ≤ 1 := by
  have h2 : _calculate_complex_hash hp0 fs0 "f" = some [] := by
    simp [_calculate_complex_hash, fs0, wholeFileDigest, hp0]
  have h3 : samplePairs rng0 8 4 (16 * ([] : List ℕ).length) 8
      = some ([(0, 1), (0, 1), (0, 1), (0, 1)], 8) := by
    norm_num [samplePairs, samplePair, retryDim2, randrangeDraw, rng0]
  obtain ⟨res, hgen, -, hlb, hub⟩ := c3_uniqueness_formula hp0 fs0 rng0 8
    "f" true [] _ 8 h2 h3
  exact ⟨res, hgen, hlb, hub⟩

theorem foldl_size {α : Type} (f : Image → α → Image)
    (hf : ∀ (im : Image) (a : α),
      (f im a).width = im.width ∧ (f im a).height = im.height) :
    ∀ (l : List α) (im : Image),
      (l.foldl f im).width = im.width
        ∧ (l.foldl f im).height = im.height := by
  intro l
  induction l with
  | nil => intro im; exact ⟨rfl, rfl⟩
  | cons a t ih =>
    intro im
    simp only [List.foldl_cons]
    obtain ⟨hw, hh⟩ := ih (f im a)
    obtain ⟨hw2, hh2⟩ := hf im a
    exact ⟨hw.trans hw2, hh.trans hh2⟩

theorem gridPixel_size (eng : Engine) (sig : SigData) (im : Image)
    (x y : ℕ) :
    (gridPixel eng sig im x y).width = im.width
      ∧ (gridPixel eng sig im x y).height = im.height := by
  simp only [gridPixel]
  split
  · exact ⟨rfl, rfl⟩
  · exact ⟨rfl, rfl⟩

theorem connectorDot_size (eng : Engine) (d1 d2 : ℕ) (im : Image)
    (istep : ℕ) :
    (connectorDot eng d1 d2 im istep).width = im.width
      ∧ (connectorDot eng d1 d2 im istep).height = im.height :=
  ⟨rfl, rfl⟩

theorem visualize_size (eng : Engine) (sig : SigData) :
    (_visualize_quantum_signature eng sig).width = eng.resolution
      ∧ (_visualize_quantum_signature eng sig).height = eng.resolution := by
  have hrow : ∀ (im : Image) (y : ℕ),
      ((List.range eng.resolution).foldl
          (fun im2 x => gridPixel eng sig im2 x y) im).width = im.width
        ∧ ((List.range eng.resolution).foldl
            (fun im2 x => gridPixel eng sig im2 x y) im).height
          = im.height :=
    fun im y => foldl_size _ (fun im2 x => gridPixel_size eng sig im2 x y)
      _ im
  have hgrid : ∀ im : Image,
      ((List.range eng.resolution).foldl
          (fun im y => (List.range eng.resolution).foldl
            (fun im2 x => gridPixel eng sig im2 x y) im) im).width
          = im.width
        ∧ ((List.range eng.resolution).foldl
            (fun im y => (List.range eng.resolution).foldl
              (fun im2 x => gridPixel eng sig im2 x y) im) im).height
          = im.height :=
    fun im => foldl_size _ hrow _ im
  have hdot : ∀ (im : Image) (p : ℕ × ℕ),
      ((List.range 100).foldl
          (fun im2 istep => connectorDot eng p.1 p.2 im2 istep) im).width
          = im.width
        ∧ ((List.range 100).foldl
            (fun im2 istep => connectorDot eng p.1 p.2 im2 istep)
            im).height = im.height :=
    fun im p => foldl_size _
      (fun im2 istep => connectorDot_size eng p.1 p.2 im2 istep) _ im
  have hconn : ∀ im : Image,
      ((sig.entanglement.foldl
          (fun im p => (List.range 100).foldl
            (fun im2 istep => connectorDot eng p.1 p.2 im2 istep) im)
          im).width = im.width)
        ∧ ((sig.entanglement.foldl
            (fun im p => (List.range 100).foldl
              (fun im2 istep => connectorDot eng p.1 p.2 im2 istep) im)
            im).height = im.height) :=
    fun im => foldl_size _ hdot _ im
  simp only [_visualize_quantum_signature]
  constructor
  · exact ((hconn _).1.trans ((hgrid _).1.trans rfl))
  · exact ((hconn _).2.trans ((hgrid _).2.trans rfl))

/-- C8: a zero-byte file is valid input — the call does not fail, the
digest is the blake2b hash of the concatenated SHA-256, MD5 and SHA-1
digests of the empty byte string, the uniqueness score lies in `[0,1]`
and the image buffer has the full 256×256 resolution. -/
theorem c8_empty_file (hp : HashPrimitives) (fs : Filesystem) (rng : Rng)
    (fuel : ℕ) (path : String) (prs : List (ℕ × ℕ)) (pos2 : ℕ)
    (h1 : fs path = some [])
    (h3 : samplePairs rng 8 4 (16 * (wholeFileDigest hp []).length) fuel
      = some (prs, pos2)) :
    _calculate_complex_hash hp fs path
        = some (hp.blake2b (hp.sha256 [] ++ hp.md5 [] ++ hp.sha1 []))
      ∧ ∃ res : SigResult,
          (generate_signature hp fs rng fuel Engine.start path true).1
              = some res
            ∧ 0 ≤ res.uniqueness_score ∧ res.uniqueness_score ≤ 1
            ∧ res.signature_image.width = 256
            ∧ res.signature_image.height = 256 := by
  have h2 : _calculate_complex_hash hp fs path
      = some (wholeFileDigest hp []) := by
    simp [_calculate_complex_hash, h1]
  obtain ⟨res, stF, hgen, hent, hamp, hin01, hconf, huniq, himg⟩ :=
    generate_success hp fs rng fuel Engine.start path true
      (wholeFileDigest hp []) prs pos2 (by decide) h2 h3
  have hlen4 : res.signature_data.entanglement.length = 4 := by
    rw [hent]
    exact (samplePairs_spec rng 8 4 _ fuel prs pos2 h3).1
  have hflat : ∀ x ∈ res.signature_data.amplitudes.flatten,
      0 ≤ x ∧ x ≤ 1 := by
    rw [hamp]
    exact amplitudes_mem01 _ stF hin01
  have hlen64 : res.signature_data.amplitudes.flatten.length = 64 := by
    rw [hamp, amplitudes_flatten_length]
    rfl
  obtain ⟨-, hlb, hub⟩ := uniqueness_formula
    { Engine.start with entanglement_pairs := prs } res.signature_data
    hflat hlen64 hlen4 rfl
  refine ⟨h2, res, by rw [hgen], ?_, ?_, ?_, ?_⟩
  · rw [huniq]; exact hlb
  · rw [huniq]; exact hub
  · rw [himg]
    exact (visualize_size _ _).1
  · rw [himg]
    exact (visualize_size _ _).2

/-- Witness for C8 at a concrete zero-byte file. -/
theorem c8_empty_file_witness :
    ∃ res : SigResult,
      (generate_signature hp0 fs0 rng0 8 Engine.start "g" true).1
          = some res
        ∧ res.signature_image.width = 256 := by
  have h3 : samplePairs rng0 8 4 (16 * (wholeFileDigest hp0 []).length) 8
      = some ([(0, 1), (0, 1), (0, 1), (0, 1)], 8) := by
    norm_num [wholeFileDigest, hp0, samplePairs, samplePair, retryDim2,
      randrangeDraw, rng0]
  obtain ⟨-, res, hgen, -, -, hw, -⟩ := c8_empty_file hp0 fs0 rng0 8 "g"
    _ 8 rfl h3
  exact ⟨res, hgen, hw⟩

theorem chunksOf_flatten (n : ℕ) (hn : n ≠ 0) (l : List ℕ) :
    (chunksOf n l).flatten = l := by
  induction l using chunksOf.induct n with
  | case1 l hl =>
    rcases hl with rfl | hl
    · rw [chunksOf]; simp
    · exact absurd hl hn
  | case2 l h ih =>
    rw [chunksOf, dif_neg h]
    simp [ih, List.take_append_drop]

theorem foldl_update_absorbed (chunks : List (List ℕ)) (c : HashCtx) :
    (chunks.foldl HashCtx.update c).absorbed = c.absorbed ++ chunks.flatten := by
  induction chunks generalizing c with
  | nil => simp
  | cons a t ih => simp [ih, HashCtx.update, List.append_assoc]

theorem streamedDigest_eq (hp : HashPrimitives) (content : List ℕ) :
    streamedDigest hp content = wholeFileDigest hp content := by
  simp only [streamedDigest, wholeFileDigest, HashCtx.final]
  rw [foldl_update_absorbed]
  simp [HashCtx.start, chunksOf_flatten 4096 (by norm_num) content]

/-- C5: for every byte content, the whole-file digest path and the
streamed path (4096-byte chunks fed incrementally into SHA-256, MD5 and
SHA-1) produce the identical final digest, namely the blake2b hash of the
concatenated SHA-256, MD5 and SHA-1 digests. -/
theorem c5_digest_paths_agree (hp : HashPrimitives) (content : List ℕ) :
    streamedDigest hp content
        = hp.blake2b (hp.sha256 content ++ hp.md5 content ++ hp.sha1 content)
      ∧ streamedDigest hp content = wholeFileDigest hp content :=
  ⟨streamedDigest_eq hp content, streamedDigest_eq hp content⟩

end QuantumSignatures
